import Mathlib

/-!
Shallow embedding of the decode-and-reduce pipeline of `cuip/hadoop/hic.py`.

A raw file buffer is a `List ℕ` of unsigned 8-bit samples (`_getImgRDD`
converts the binary payload to a flat `uint8` numpy array).  The algorithmic
core lives in `HadoopImageCluster.mean`:

* Python/numpy basic slicing `x[a:b]` is `npSlice` (clamping, never failing).
* `numpy.reshape` to shape `(nrows, ncols, ndims)` is `npReshape3`; numpy
  raises `ValueError` when the flat length does not match the shape, which the
  embedding records as `HicError.geometryError`.
* A reshaped array is `NpArray3`: the flat data together with its shape,
  indexed in row-major (C) order by `npIndex3`; the basic slice
  `img[:, :, d]` is `channelSlice`.
* `numpy.mean` is `npMean`, with exact rational arithmetic standing in for the
  float64 accumulator (`np.mean` of a `uint8` array widens to float64).
* The comprehension `[_perDim(x[i*R : (i+1)*R].reshape(...), ndims) for i in
  range(n)]`, in which a failing reshape aborts the whole computation, is
  `mapExcept` applied to `List.range n`; `decode` is the reshape part alone.
* The `asdf=True` branch maps each `(identifier, means)` pair to the row
  `(os.path.basename(identifier), means[0][1], means[1][1], means[2][1])`
  (`meanFormatted`); the Python `IndexError` raised by an out-of-range list
  index is `HicError.channelIndexError`.  `meanRecord` is the whole per-file
  pipeline of the `asdf=True` branch.
-/

/-- Failure modes of the per-file pipeline: `geometryError sz r c d` models
the numpy `ValueError` "cannot reshape array of size sz into shape (r,c,d)";
`channelIndexError` models the Python `IndexError` raised by the legacy
three-column projection. -/
inductive HicError where
  | geometryError (size nrows ncols ndims : ℕ)
  | channelIndexError
deriving DecidableEq

deriving instance DecidableEq for Except

/-- A numpy 3-d array: flat row-major data plus its shape, as numpy stores
it. -/
structure NpArray3 where
  nrows : ℕ
  ncols : ℕ
  ndims : ℕ
  data : List ℕ
deriving DecidableEq

instance : Inhabited NpArray3 := ⟨⟨0, 0, 0, []⟩⟩

/-- Python/numpy basic slice `x[a:b]` (non-negative bounds): clamps to the
available length, never fails. -/
def npSlice (x : List ℕ) (a b : ℕ) : List ℕ := (x.take b).drop a

/-- Numpy reshape `l.reshape(nrows, ncols, ndims)`: succeeds exactly when the flat size
matches the requested shape, as numpy's reshape does. -/
def npReshape3 (l : List ℕ) (nrows ncols ndims : ℕ) : Except HicError NpArray3 :=
  if l.length = nrows * ncols * ndims then .ok ⟨nrows, ncols, ndims, l⟩
  else .error (.geometryError l.length nrows ncols ndims)

/-- Row-major (C-order) element access `img[r, c, d]`: the channel index
varies fastest, then the column, then the row. -/
def npIndex3 (img : NpArray3) (r c d : ℕ) : ℕ :=
  img.data.getD (r * (img.ncols * img.ndims) + c * img.ndims + d) 0

/-- The basic slice `img[:, :, d]`, flattened in row-major order. -/
def channelSlice (img : NpArray3) (d : ℕ) : List ℕ :=
  (List.range img.nrows).flatMap
    (fun r => (List.range img.ncols).map (fun c => npIndex3 img r c d))

/-- Model of `np.mean` over a `uint8` array, widened to an exact-arithmetic
accumulator (the code's float64). -/
def npMean (l : List ℕ) : ℚ := (l.sum : ℚ) / (l.length : ℚ)

/-- The inner helper `_perDim(img, ndims)`: the list `[np.mean(img[:,:,d]) for d in
range(ndims)]` built by the inner loop. -/
def _perDim (img : NpArray3) (ndims : ℕ) : List ℚ :=
  (List.range ndims).map (fun d => npMean (channelSlice img d))

/-- A Python list comprehension `[f(i) for i in l]` in which `f` may raise:
the first raised exception aborts the whole comprehension. -/
def mapExcept {α : Type} (f : ℕ → Except HicError α) : List ℕ → Except HicError (List α)
  | [] => .ok []
  | i :: is => do
    let y ← f i
    let ys ← mapExcept f is
    pure (y :: ys)

/-- The decoding half of `_mean`: slice block `i` out of the buffer and
reshape it to `(nrows, ncols, ndims)`, for `i` in `range(n)`. -/
def decode (x : List ℕ) (n nrows ncols ndims : ℕ) : Except HicError (List NpArray3) :=
  mapExcept
    (fun i => npReshape3
      (npSlice x (i * (nrows * ncols * ndims)) ((i + 1) * (nrows * ncols * ndims)))
      nrows ncols ndims)
    (List.range n)

/-- The helper `_mean(x)`: per-block, slice, reshape and take per-channel means; the
per-file value of the `asdf=False` result (`img_rdd.mapValues(_mean)`). -/
def _mean (x : List ℕ) (n nrows ncols ndims : ℕ) : Except HicError (List (List ℚ)) :=
  mapExcept
    (fun i => (npReshape3
      (npSlice x (i * (nrows * ncols * ndims)) ((i + 1) * (nrows * ncols * ndims)))
      nrows ncols ndims).map (fun img => _perDim img ndims))
    (List.range n)

/-- Model of `os.path.basename`: the part of the path after the last slash. -/
def basename (s : String) : String :=
  String.mk ((s.toList.reverse.takeWhile (fun c => c ≠ '/')).reverse)

/-- One row of the legacy dataframe: schema
`(Filename, CH0, CH1, CH2)`. -/
structure OutputRecord where
  Filename : String
  CH0 : ℚ
  CH1 : ℚ
  CH2 : ℚ
deriving DecidableEq

/-- The legacy projection of the `asdf=True` branch:
`(os.path.basename(x[0]), float(x[1][0][1]), float(x[1][1][1]),
float(x[1][2][1]))`; a missing block or channel raises `IndexError`. -/
def meanFormatted (ident : String) (m : List (List ℚ)) : Except HicError OutputRecord :=
  match (m.get? 0).bind (fun row => row.get? 1),
        (m.get? 1).bind (fun row => row.get? 1),
        (m.get? 2).bind (fun row => row.get? 1) with
  | some a, some b, some c => .ok ⟨basename ident, a, b, c⟩
  | _, _, _ => .error .channelIndexError

/-- The whole per-file pipeline of `mean(..., asdf=True)`: compute `_mean`
of the buffer, then apply the legacy three-column projection. -/
def meanRecord (ident : String) (x : List ℕ) (n nrows ncols ndims : ℕ) :
    Except HicError OutputRecord :=
  (_mean x n nrows ncols ndims).bind (meanFormatted ident)

/-! ## Library on `mapExcept`, slices and reshapes -/

theorem mapExcept_ok_of {α : Type} (f : ℕ → Except HicError α) (g : ℕ → α) :
    ∀ l : List ℕ, (∀ a ∈ l, f a = .ok (g a)) → mapExcept f l = .ok (l.map g) := by
  intro l
  induction l with
  | nil => intro _; rfl
  | cons i is ih =>
    intro h
    have hi := h i (List.mem_cons_self i is)
    have his := ih (fun a ha => h a (List.mem_cons_of_mem i ha))
    simp [mapExcept, hi, his, Except.instMonad, Except.bind, Except.pure, List.map_cons]

theorem mapExcept_ok_forall {α : Type} (f : ℕ → Except HicError α) :
    ∀ (l : List ℕ) (ys : List α), mapExcept f l = .ok ys →
      List.Forall₂ (fun i y => f i = .ok y) l ys := by
  intro l
  induction l with
  | nil =>
    intro ys h
    simp [mapExcept] at h
    simp [← h]
  | cons i is ih =>
    intro ys h
    simp only [mapExcept] at h
    cases hi : f i with
    | error e => rw [hi] at h; simp [Except.instMonad, Except.bind] at h
    | ok y =>
      rw [hi] at h
      cases his : mapExcept f is with
      | error e => rw [his] at h; simp [Except.instMonad, Except.bind] at h
      | ok ys' =>
        rw [his] at h
        simp [Except.instMonad, Except.bind, Except.pure] at h
        subst h
        exact List.Forall₂.cons hi (ih ys' his)

theorem mapExcept_error {α : Type} (f : ℕ → Except HicError α) :
    ∀ l : List ℕ, ∀ e, mapExcept f l = .error e → ∃ a ∈ l, f a = .error e := by
  intro l
  induction l with
  | nil => intro e h; simp [mapExcept] at h
  | cons i is ih =>
    intro e h
    simp only [mapExcept] at h
    cases hi : f i with
    | error e' =>
      rw [hi] at h
      simp [Except.instMonad, Except.bind] at h
      exact ⟨i, List.mem_cons_self i is, by rw [hi, h]⟩
    | ok y =>
      rw [hi] at h
      cases his : mapExcept f is with
      | error e' =>
        rw [his] at h
        simp [Except.instMonad, Except.bind, Except.pure] at h
        obtain ⟨a, ha, hfa⟩ := ih e' his
        exact ⟨a, List.mem_cons_of_mem i ha, by rw [hfa, h]⟩
      | ok ys' => rw [his] at h; simp [Except.instMonad, Except.bind, Except.pure] at h

theorem mapExcept_map {α β : Type} (f : ℕ → Except HicError α) (g : α → β) :
    ∀ l : List ℕ, mapExcept (fun i => (f i).map g) l = (mapExcept f l).map (List.map g) := by
  intro l
  induction l with
  | nil => simp [mapExcept, Except.map]
  | cons i is ih =>
    simp only [mapExcept, ih]
    cases f i with
    | error e => simp [Except.map, Except.instMonad, Except.bind]
    | ok y =>
      cases mapExcept f is with
      | error e => simp [Except.map, Except.instMonad, Except.bind]
      | ok ys => simp [Except.map, Except.instMonad, Except.bind, Except.pure]

theorem mapExcept_congr {α : Type} (f g : ℕ → Except HicError α) :
    ∀ l : List ℕ, (∀ a ∈ l, f a = g a) → mapExcept f l = mapExcept g l := by
  intro l
  induction l with
  | nil => intro _; rfl
  | cons i is ih =>
    intro h
    simp only [mapExcept]
    rw [h i (List.mem_cons_self i is), ih (fun a ha => h a (List.mem_cons_of_mem i ha))]

theorem npSlice_length (x : List ℕ) (a b : ℕ) :
    (npSlice x a b).length = min b x.length - a := by
  simp [npSlice]

theorem npSlice_length_of_le (x : List ℕ) (a b : ℕ) (hb : b ≤ x.length) :
    (npSlice x a b).length = b - a := by
  rw [npSlice_length, Nat.min_eq_left hb]

theorem npSlice_getElem? (x : List ℕ) (a b j : ℕ) (h : a + j < b) :
    (npSlice x a b)[j]? = x[a + j]? := by
  simp only [npSlice]
  rw [List.getElem?_drop, List.getElem?_take]
  exact if_pos h

theorem npSlice_getD (x : List ℕ) (a b j : ℕ) (h : a + j < b) :
    (npSlice x a b).getD j 0 = x.getD (a + j) 0 := by
  rw [List.getD_eq_getElem?_getD, List.getD_eq_getElem?_getD, npSlice_getElem? x a b j h]

theorem npSlice_subset (x : List ℕ) (a b : ℕ) : ∀ v ∈ npSlice x a b, v ∈ x := by
  intro v hv
  exact List.mem_of_mem_take (List.mem_of_mem_drop hv)

theorem npReshape3_ok (l : List ℕ) (nrows ncols ndims : ℕ)
    (h : l.length = nrows * ncols * ndims) :
    npReshape3 l nrows ncols ndims = .ok ⟨nrows, ncols, ndims, l⟩ := by
  simp [npReshape3, h]

theorem npReshape3_error (l : List ℕ) (nrows ncols ndims : ℕ)
    (h : l.length ≠ nrows * ncols * ndims) :
    npReshape3 l nrows ncols ndims = .error (.geometryError l.length nrows ncols ndims) := by
  simp [npReshape3, h]

theorem npReshape3_ok_inv (l : List ℕ) (nrows ncols ndims : ℕ) (img : NpArray3)
    (h : npReshape3 l nrows ncols ndims = .ok img) :
    img = ⟨nrows, ncols, ndims, l⟩ ∧ l.length = nrows * ncols * ndims := by
  by_cases hl : l.length = nrows * ncols * ndims
  · rw [npReshape3_ok l nrows ncols ndims hl] at h
    exact ⟨(Except.ok.inj h).symm, hl⟩
  · rw [npReshape3_error l nrows ncols ndims hl] at h
    exact absurd h (by simp)

theorem npReshape3_error_inv (l : List ℕ) (nrows ncols ndims : ℕ) (e : HicError)
    (h : npReshape3 l nrows ncols ndims = .error e) :
    e = .geometryError l.length nrows ncols ndims ∧ l.length ≠ nrows * ncols * ndims := by
  by_cases hl : l.length = nrows * ncols * ndims
  · rw [npReshape3_ok l nrows ncols ndims hl] at h
    exact absurd h (by simp)
  · rw [npReshape3_error l nrows ncols ndims hl] at h
    exact ⟨(Except.error.inj h).symm, hl⟩

theorem decode_ok (x : List ℕ) (n nrows ncols ndims : ℕ)
    (h : n * (nrows * ncols * ndims) ≤ x.length) :
    decode x n nrows ncols ndims = .ok ((List.range n).map
      (fun i => ⟨nrows, ncols, ndims,
        npSlice x (i * (nrows * ncols * ndims)) ((i + 1) * (nrows * ncols * ndims))⟩)) := by
  apply mapExcept_ok_of
  intro i hi
  rw [List.mem_range] at hi
  apply npReshape3_ok
  rw [npSlice_length_of_le]
  · rw [Nat.succ_mul, Nat.add_sub_cancel_left]
  · calc (i + 1) * (nrows * ncols * ndims) ≤ n * (nrows * ncols * ndims) :=
          Nat.mul_le_mul_right _ hi
    _ ≤ x.length := h

theorem _mean_eq_decode (x : List ℕ) (n nrows ncols ndims : ℕ) :
    _mean x n nrows ncols ndims =
      (decode x n nrows ncols ndims).map (List.map (fun img => _perDim img ndims)) := by
  unfold _mean decode
  exact mapExcept_map _ _ _

theorem flatMap_range_collapse (data : List ℕ) (nd dd : ℕ) :
    ∀ r c : ℕ,
      (List.range r).flatMap
        (fun rr => (List.range c).map (fun cc => data.getD (rr * (c * nd) + cc * nd + dd) 0)) =
      (List.range (r * c)).map (fun p => data.getD (p * nd + dd) 0) := by
  intro r
  induction r with
  | zero => intro c; simp
  | succ r ih =>
    intro c
    rw [List.range_succ, List.flatMap_append, ih c, Nat.succ_mul, List.range_add,
      List.map_append]
    congr 1
    · simp only [List.flatMap_cons, List.flatMap_nil, List.append_nil, List.map_map]
      apply List.map_congr_left
      intro cc _
      simp only [Function.comp_apply]
      congr 1
      ring

theorem channelSlice_eq (img : NpArray3) (dd : ℕ) :
    channelSlice img dd = (List.range (img.nrows * img.ncols)).map
      (fun p => img.data.getD (p * img.ndims + dd) 0) := by
  unfold channelSlice npIndex3
  exact flatMap_range_collapse img.data img.ndims dd img.nrows img.ncols

theorem channelSlice_length (img : NpArray3) (dd : ℕ) :
    (channelSlice img dd).length = img.nrows * img.ncols := by
  rw [channelSlice_eq]; simp

theorem _perDim_length (img : NpArray3) (ndims : ℕ) : (_perDim img ndims).length = ndims := by
  simp [_perDim]

theorem _perDim_getElem? (img : NpArray3) (ndims dd : ℕ) (h : dd < ndims) :
    (_perDim img ndims)[dd]? = some (npMean (channelSlice img dd)) := by
  unfold _perDim
  rw [List.getElem?_map, List.getElem?_range h]
  rfl

theorem _perDim_getD (img : NpArray3) (ndims dd : ℕ) (h : dd < ndims) :
    (_perDim img ndims).getD dd 0 = npMean (channelSlice img dd) := by
  rw [List.getD_eq_getElem?_getD, _perDim_getElem? img ndims dd h]
  rfl

theorem list_sum_le_card_mul (B : ℕ) :
    ∀ l : List ℕ, (∀ v ∈ l, v ≤ B) → (l.sum : ℚ) ≤ B * l.length := by
  intro l
  induction l with
  | nil => intro _; simp
  | cons v vs ih =>
    intro h
    have hv : (v : ℚ) ≤ B := by
      exact_mod_cast h v (List.mem_cons_self v vs)
    have hvs := ih (fun a ha => h a (List.mem_cons_of_mem v ha))
    simp only [List.sum_cons, List.length_cons]
    push_cast
    push_cast at hvs
    nlinarith

theorem npMean_nonneg (l : List ℕ) : 0 ≤ npMean l := by
  unfold npMean
  positivity

theorem npMean_le (B : ℕ) (l : List ℕ) (h : ∀ v ∈ l, v ≤ B) : npMean l ≤ B := by
  unfold npMean
  rcases Nat.eq_zero_or_pos l.length with hl | hl
  · rw [hl]
    simp
  · rw [div_le_iff₀ (by exact_mod_cast hl)]
    calc (l.sum : ℚ) ≤ B * l.length := list_sum_le_card_mul B l h
    _ = B * l.length := rfl

theorem getD_zero_mem_or (l : List ℕ) (i : ℕ) : l.getD i 0 = 0 ∨ l.getD i 0 ∈ l := by
  rcases Nat.lt_or_ge i l.length with h | h
  · right
    rw [List.getD_eq_getElem l 0 h]
    exact l.getElem_mem h
  · left
    rw [List.getD_eq_default l 0 h]

theorem map_range_getD {α : Type} [Inhabited α] (f : ℕ → α) (n i : ℕ) (h : i < n) :
    ((List.range n).map f).getD i default = f i := by
  rw [List.getD_eq_getElem?_getD, List.getElem?_map, List.getElem?_range h]
  rfl

theorem index3_lt (rr cc dd nrows ncols ndims : ℕ)
    (h1 : rr < nrows) (h2 : cc < ncols) (h3 : dd < ndims) :
    rr * (ncols * ndims) + cc * ndims + dd < nrows * ncols * ndims := by
  have h4 : cc * ndims + dd < (cc + 1) * ndims := by rw [Nat.succ_mul]; omega
  have h5 : (cc + 1) * ndims ≤ ncols * ndims := Nat.mul_le_mul_right ndims h2
  have h6 : (rr + 1) * (ncols * ndims) ≤ nrows * (ncols * ndims) :=
    Nat.mul_le_mul_right (ncols * ndims) h1
  rw [Nat.succ_mul] at h6
  rw [Nat.mul_assoc]
  omega

/-! ## Claim theorems -/

/-- C2: for every byte buffer and positive geometry `(n, nrows, ncols, ndims)`
with the buffer at least `n*nrows*ncols*ndims` samples long, the decoder
produces exactly `n` blocks in stack order; block `i` is the sample range
`[i*nrows*ncols*ndims, (i+1)*nrows*ncols*ndims)` of the buffer reinterpreted
as a `(nrows, ncols, ndims)` row-major 3-d array, the channel index varying
fastest, then column, then row. -/
theorem C2_decode_blocks (x : List ℕ) (n nrows ncols ndims : ℕ)
    (hn : 0 < n) (hr : 0 < nrows) (hc : 0 < ncols) (hd : 0 < ndims)
    (hlen : n * (nrows * ncols * ndims) ≤ x.length) :
    ∃ blocks, decode x n nrows ncols ndims = .ok blocks ∧ blocks.length = n ∧
      ∀ i < n,
        (blocks.getD i default).data =
          npSlice x (i * (nrows * ncols * ndims)) ((i + 1) * (nrows * ncols * ndims)) ∧
        (blocks.getD i default).nrows = nrows ∧
        (blocks.getD i default).ncols = ncols ∧
        (blocks.getD i default).ndims = ndims ∧
        ∀ rr < nrows, ∀ cc < ncols, ∀ dd < ndims,
          npIndex3 (blocks.getD i default) rr cc dd =
            x.getD (i * (nrows * ncols * ndims) +
              (rr * (ncols * ndims) + cc * ndims + dd)) 0 := by
  refine ⟨_, decode_ok x n nrows ncols ndims hlen, by simp, ?_⟩
  intro i hi
  rw [map_range_getD _ n i hi]
  refine ⟨rfl, rfl, rfl, rfl, ?_⟩
  intro rr hrr cc hcc dd hdd
  unfold npIndex3
  simp only
  rw [npSlice_getD]
  have hidx := index3_lt rr cc dd nrows ncols ndims hrr hcc hdd
  rw [Nat.succ_mul]
  omega

/-- Witness for C2 at a concrete input. -/
theorem C2_decode_blocks_w :
    ∃ blocks, decode [5] 1 1 1 1 = .ok blocks ∧ blocks.length = 1 ∧
      ∀ i < 1,
        (blocks.getD i default).data = npSlice [5] (i * (1 * 1 * 1)) ((i + 1) * (1 * 1 * 1)) ∧
        (blocks.getD i default).nrows = 1 ∧
        (blocks.getD i default).ncols = 1 ∧
        (blocks.getD i default).ndims = 1 ∧
        ∀ rr < 1, ∀ cc < 1, ∀ dd < 1,
          npIndex3 (blocks.getD i default) rr cc dd =
            List.getD [5] (i * (1 * 1 * 1) + (rr * (1 * 1) + cc * 1 + dd)) 0 :=
  C2_decode_blocks [5] 1 1 1 1 (by decide) (by decide) (by decide) (by decide) (by decide)

theorem flatten_decode_take (x : List ℕ) (nrows ncols ndims : ℕ) :
    ∀ m : ℕ,
      (((List.range m).map
        (fun i => npSlice x (i * (nrows * ncols * ndims))
          ((i + 1) * (nrows * ncols * ndims)))).flatten) =
      x.take (m * (nrows * ncols * ndims)) := by
  intro m
  induction m with
  | zero => simp
  | succ m ih =>
    rw [List.range_succ, List.map_append, List.flatten_append, ih]
    simp only [List.map_cons, List.map_nil, List.flatten_cons, List.flatten_nil,
      List.append_nil]
    rw [Nat.succ_mul, List.take_add]
    congr 1
    unfold npSlice
    rw [List.drop_take, Nat.add_sub_cancel_left]

/-- C4: for every buffer whose length is exactly `n*nrows*ncols*ndims`,
decoding into `n` blocks and re-flattening the blocks in stack order
reproduces the original byte sequence exactly. -/
theorem C4_decode_flatten (x : List ℕ) (n nrows ncols ndims : ℕ)
    (hlen : x.length = n * (nrows * ncols * ndims)) :
    ∃ blocks, decode x n nrows ncols ndims = .ok blocks ∧
      (blocks.map NpArray3.data).flatten = x := by
  refine ⟨_, decode_ok x n nrows ncols ndims (le_of_eq hlen.symm), ?_⟩
  rw [List.map_map]
  have : (NpArray3.data ∘ fun i =>
      (⟨nrows, ncols, ndims,
        npSlice x (i * (nrows * ncols * ndims)) ((i + 1) * (nrows * ncols * ndims))⟩ : NpArray3)) =
      fun i => npSlice x (i * (nrows * ncols * ndims)) ((i + 1) * (nrows * ncols * ndims)) := rfl
  rw [this, flatten_decode_take x nrows ncols ndims n, ← hlen, List.take_length]

/-- Witness for C4 at a concrete input. -/
theorem C4_decode_flatten_w :
    ∃ blocks, decode [1, 2, 3, 4] 2 1 1 2 = .ok blocks ∧
      (blocks.map NpArray3.data).flatten = [1, 2, 3, 4] :=
  C4_decode_flatten [1, 2, 3, 4] 2 1 1 2 (by decide)

theorem mapExcept_ok_exists {α : Type} (f : ℕ → Except HicError α) :
    ∀ (l : List ℕ) (ys : List α), mapExcept f l = .ok ys →
      ∀ a ∈ l, ∃ y, f a = .ok y := by
  intro l
  induction l with
  | nil => intro ys _ a ha; exact absurd ha (List.not_mem_nil a)
  | cons i is ih =>
    intro ys h a ha
    simp only [mapExcept] at h
    cases hi : f i with
    | error e =>
      rw [hi] at h
      simp [Except.instMonad, Except.bind] at h
    | ok y =>
      rw [hi] at h
      cases his : mapExcept f is with
      | error e =>
        rw [his] at h
        simp [Except.instMonad, Except.bind] at h
      | ok ys' =>
        rcases List.mem_cons.mp ha with rfl | ha'
        · exact ⟨y, hi⟩
        · exact ih ys' his a ha'

/-- C5: for every input buffer shorter than the `n*nrows*ncols*ndims` samples
required by the declared geometry, the decode step fails with a geometry
error (the numpy reshape `ValueError` modelled by
`HicError.geometryError`); the buffer is not silently truncated.  The same
error is the result of the whole `_mean` step. -/
theorem C5_short_buffer_geometryError (x : List ℕ) (n nrows ncols ndims : ℕ)
    (hlen : x.length < n * (nrows * ncols * ndims)) :
    ∃ sz, sz ≠ nrows * ncols * ndims ∧
      decode x n nrows ncols ndims = .error (.geometryError sz nrows ncols ndims) ∧
      _mean x n nrows ncols ndims = .error (.geometryError sz nrows ncols ndims) := by
  have hbs : 0 < nrows * ncols * ndims := by
    rcases Nat.eq_zero_or_pos (nrows * ncols * ndims) with h | h
    · rw [h, Nat.mul_zero] at hlen; omega
    · exact h
  have hn : 0 < n := by
    rcases Nat.eq_zero_or_pos n with h | h
    · rw [h, Nat.zero_mul] at hlen; omega
    · exact h
  cases hdec : decode x n nrows ncols ndims with
  | ok blocks =>
    exfalso
    have hmem : n - 1 ∈ List.range n := List.mem_range.mpr (by omega)
    obtain ⟨img, himg⟩ := mapExcept_ok_exists _ _ _ hdec (n - 1) hmem
    obtain ⟨_, hslen⟩ := npReshape3_ok_inv _ _ _ _ _ himg
    rw [npSlice_length] at hslen
    have h1 : (n - 1 + 1) * (nrows * ncols * ndims) = n * (nrows * ncols * ndims) := by
      rw [Nat.sub_add_cancel (by omega : 1 ≤ n)]
    rw [h1, Nat.min_eq_right (le_of_lt hlen)] at hslen
    have h2 : (n - 1) * (nrows * ncols * ndims) + (nrows * ncols * ndims) =
        n * (nrows * ncols * ndims) := by
      rw [← h1, Nat.succ_mul]
    omega
  | error e =>
    obtain ⟨i, _, hfi⟩ := mapExcept_error _ _ _ hdec
    obtain ⟨he, hne⟩ := npReshape3_error_inv _ _ _ _ _ hfi
    refine ⟨(npSlice x (i * (nrows * ncols * ndims))
        ((i + 1) * (nrows * ncols * ndims))).length, hne, ?_, ?_⟩
    · rw [he]
    · rw [_mean_eq_decode, hdec, he]
      rfl

/-- Witness for C5 at a concrete input. -/
theorem C5_short_buffer_geometryError_w :
    ∃ sz, sz ≠ 1 * 1 * 2 ∧
      decode [9] 1 1 1 2 = .error (.geometryError sz 1 1 2) ∧
      _mean [9] 1 1 1 2 = .error (.geometryError sz 1 1 2) :=
  C5_short_buffer_geometryError [9] 1 1 1 2 (by decide)

theorem mapExcept_ok_mem_right {α : Type} (f : ℕ → Except HicError α) :
    ∀ (l : List ℕ) (ys : List α), mapExcept f l = .ok ys →
      ∀ y ∈ ys, ∃ a ∈ l, f a = .ok y := by
  intro l
  induction l with
  | nil =>
    intro ys h y hy
    simp only [mapExcept] at h
    cases h
    exact absurd hy (List.not_mem_nil y)
  | cons i is ih =>
    intro ys h y hy
    simp only [mapExcept] at h
    cases hi : f i with
    | error e =>
      rw [hi] at h
      simp [Except.instMonad, Except.bind] at h
    | ok y' =>
      rw [hi] at h
      cases his : mapExcept f is with
      | error e =>
        rw [his] at h
        simp [Except.instMonad, Except.bind] at h
      | ok ys' =>
        rw [his] at h
        simp [Except.instMonad, Except.bind, Except.pure] at h
        subst h
        rcases List.mem_cons.mp hy with rfl | hy'
        · exact ⟨i, List.mem_cons_self i is, hi⟩
        · obtain ⟨a, ha, hfa⟩ := ih ys' his y hy'
          exact ⟨a, List.mem_cons_of_mem i ha, hfa⟩

theorem except_map_eq_ok {α β : Type} (o : Except HicError α) (g : α → β) (b : β)
    (h : o.map g = .ok b) : ∃ a, o = .ok a ∧ g a = b := by
  cases o with
  | error e => simp [Except.map] at h
  | ok a =>
    refine ⟨a, rfl, ?_⟩
    simpa [Except.map] using h

/-- C10: for every file processed with `asdf=False`, the per-file value in the
returned result is the full means matrix: whenever `_mean` succeeds it is a
list of exactly `n` rows (one per block, in stack order), each of exactly
`ndims` channel means. -/
theorem C10_full_matrix_shape (x : List ℕ) (n nrows ncols ndims : ℕ)
    (m : List (List ℚ)) (h : _mean x n nrows ncols ndims = .ok m) :
    m.length = n ∧ ∀ row ∈ m, row.length = ndims := by
  constructor
  · have := (mapExcept_ok_forall _ _ _ h).length_eq
    simpa using this.symm
  · intro row hrow
    obtain ⟨i, _, hfi⟩ := mapExcept_ok_mem_right _ _ _ h row hrow
    obtain ⟨img, _, hrow'⟩ := except_map_eq_ok _ _ _ hfi
    rw [← hrow']
    exact _perDim_length img ndims

/-- Witness for C10 at a concrete input. -/
theorem C10_full_matrix_shape_w :
    ([[1, 2], [3, 4]] : List (List ℚ)).length = 2 ∧
      ∀ row ∈ ([[1, 2], [3, 4]] : List (List ℚ)), row.length = 2 :=
  C10_full_matrix_shape [1, 2, 3, 4] 2 1 1 2 [[1, 2], [3, 4]]
    (by simp [_mean, mapExcept, npSlice, npReshape3, _perDim, channelSlice, npIndex3, npMean,
      List.range_succ, Except.map, Except.instMonad, Except.bind, Except.pure])

theorem npSlice_congr_prefix (x y : List ℕ) (a b N : ℕ) (hb : b ≤ N)
    (hpre : x.take N = y.take N) : npSlice x a b = npSlice y a b := by
  unfold npSlice
  have hx : x.take b = (x.take N).take b := by
    rw [List.take_take, Nat.min_eq_left hb]
  have hy : y.take b = (y.take N).take b := by
    rw [List.take_take, Nat.min_eq_left hb]
  rw [hx, hy, hpre]

/-- C9: the per-file result depends only on the first `n*nrows*ncols*ndims`
samples of the buffer: two buffers (each at least that long) that agree on
that prefix get identical means matrices, and identical OutputRecords for
equal identifiers; trailing excess bytes are ignored. -/
theorem C9_prefix_only (x y : List ℕ) (ident : String) (n nrows ncols ndims : ℕ)
    (hx : n * (nrows * ncols * ndims) ≤ x.length)
    (hy : n * (nrows * ncols * ndims) ≤ y.length)
    (hpre : x.take (n * (nrows * ncols * ndims)) = y.take (n * (nrows * ncols * ndims))) :
    _mean x n nrows ncols ndims = _mean y n nrows ncols ndims ∧
      meanRecord ident x n nrows ncols ndims = meanRecord ident y n nrows ncols ndims := by
  have hmean : _mean x n nrows ncols ndims = _mean y n nrows ncols ndims := by
    unfold _mean
    apply mapExcept_congr
    intro i hi
    rw [List.mem_range] at hi
    have hslice : npSlice x (i * (nrows * ncols * ndims)) ((i + 1) * (nrows * ncols * ndims)) =
        npSlice y (i * (nrows * ncols * ndims)) ((i + 1) * (nrows * ncols * ndims)) :=
      npSlice_congr_prefix x y _ _ _ (Nat.mul_le_mul_right _ hi) hpre
    rw [hslice]
  exact ⟨hmean, by unfold meanRecord; rw [hmean]⟩

/-- Witness for C9 at a concrete input. -/
theorem C9_prefix_only_w :
    _mean [1, 2, 9] 1 1 1 2 = _mean [1, 2, 7, 7] 1 1 1 2 ∧
      meanRecord "a" [1, 2, 9] 1 1 1 2 = meanRecord "a" [1, 2, 7, 7] 1 1 1 2 :=
  C9_prefix_only [1, 2, 9] [1, 2, 7, 7] "a" 1 1 1 2 (by decide) (by decide) (by decide)

/-- C3: for every decoded block (a reshaped array whose `ndims` field is the
`ndims` passed to `_perDim`) and every channel index `dd < ndims`, the
computed per-block statistic `mean[dd]` equals the arithmetic mean of the
`nrows*ncols` samples whose channel index is `dd` within the block, i.e. of
the flat samples at positions `p * ndims + dd`. -/
theorem C3_perDim_is_channel_mean (img : NpArray3) (ndims dd : ℕ)
    (himg : img.ndims = ndims) (hdd : dd < ndims) :
    (channelSlice img dd).length = img.nrows * img.ncols ∧
    (_perDim img ndims).getD dd 0 =
      (((List.range (img.nrows * img.ncols)).map
        (fun p => img.data.getD (p * ndims + dd) 0)).sum : ℚ) /
      ((img.nrows * img.ncols : ℕ) : ℚ) := by
  refine ⟨channelSlice_length img dd, ?_⟩
  rw [_perDim_getD img ndims dd hdd]
  unfold npMean
  rw [channelSlice_eq, himg]
  congr 1
  simp

/-- Witness for C3 at a concrete input. -/
theorem C3_perDim_is_channel_mean_w :
    (channelSlice ⟨1, 2, 2, [3, 4, 5, 6]⟩ 1).length = 1 * 2 ∧
    (_perDim ⟨1, 2, 2, [3, 4, 5, 6]⟩ 2).getD 1 0 =
      (((List.range (1 * 2)).map
        (fun p => List.getD ([3, 4, 5, 6] : List ℕ) (p * 2 + 1) 0)).sum : ℚ) /
      ((1 * 2 : ℕ) : ℚ) :=
  C3_perDim_is_channel_mean ⟨1, 2, 2, [3, 4, 5, 6]⟩ 2 1 rfl (by decide)

theorem channelSlice_bounded (img : NpArray3) (dd B : ℕ)
    (hdata : ∀ v ∈ img.data, v ≤ B) : ∀ v ∈ channelSlice img dd, v ≤ B := by
  intro v hv
  rw [channelSlice_eq] at hv
  obtain ⟨p, _, hval⟩ := List.mem_map.mp hv
  rcases getD_zero_mem_or img.data (p * img.ndims + dd) with h0 | hmem
  · omega
  · rw [hval] at hmem
    exact hdata _ hmem

/-- C8: for every block decoded from unsigned 8-bit samples (all buffer
values at most 255) and every channel index, the computed channel mean lies
in the closed interval `[0, 255]`. -/
theorem C8_means_bounded (x : List ℕ) (n nrows ncols ndims : ℕ) (blocks : List NpArray3)
    (hbytes : ∀ v ∈ x, v ≤ 255)
    (hdec : decode x n nrows ncols ndims = .ok blocks) :
    ∀ img ∈ blocks, ∀ q ∈ _perDim img ndims, 0 ≤ q ∧ q ≤ 255 := by
  intro img himg q hq
  obtain ⟨i, _, hfi⟩ := mapExcept_ok_mem_right _ _ _ hdec img himg
  obtain ⟨himg', _⟩ := npReshape3_ok_inv _ _ _ _ _ hfi
  have hdata : ∀ v ∈ img.data, v ≤ 255 := by
    intro v hv
    rw [himg'] at hv
    exact hbytes v (npSlice_subset x _ _ v hv)
  obtain ⟨dd, _, hqval⟩ := List.mem_map.mp hq
  rw [← hqval]
  exact ⟨npMean_nonneg _, npMean_le 255 _ (channelSlice_bounded img dd 255 hdata)⟩

/-- Witness for C8 at a concrete input. -/
theorem C8_means_bounded_w :
    0 ≤ npMean (channelSlice ⟨1, 1, 2, [0, 255]⟩ 1) ∧
      npMean (channelSlice ⟨1, 1, 2, [0, 255]⟩ 1) ≤ 255 :=
  C8_means_bounded [0, 255] 1 1 1 2 [⟨1, 1, 2, [0, 255]⟩] (by decide)
    (by simp [decode, mapExcept, npSlice, npReshape3, Except.instMonad, Except.bind,
      Except.pure, List.range_succ])
    ⟨1, 1, 2, [0, 255]⟩ (by simp)
    (npMean (channelSlice ⟨1, 1, 2, [0, 255]⟩ 1)) (by simp [_perDim, List.range_succ])

theorem except_bind_eq_ok {α β : Type} (o : Except HicError α) (f : α → Except HicError β)
    (b : β) (h : o.bind f = .ok b) : ∃ a, o = .ok a ∧ f a = .ok b := by
  cases o with
  | error e => simp [Except.bind] at h
  | ok a => exact ⟨a, rfl, h⟩

theorem meanFormatted_ok_inv (ident : String) (m : List (List ℚ)) (rec : OutputRecord)
    (h : meanFormatted ident m = .ok rec) :
    ∃ a b c, (m.get? 0).bind (fun row => row.get? 1) = some a ∧
      (m.get? 1).bind (fun row => row.get? 1) = some b ∧
      (m.get? 2).bind (fun row => row.get? 1) = some c ∧
      rec = ⟨basename ident, a, b, c⟩ := by
  unfold meanFormatted at h
  split at h
  · rename_i a b c ha hb hc
    exact ⟨a, b, c, ha, hb, hc, (Except.ok.inj h).symm⟩
  · exact absurd h (by simp)

theorem map_range_get?_some {α : Type} (g : ℕ → α) (n j : ℕ) (a : α)
    (h : ((List.range n).map g).get? j = some a) : j < n ∧ a = g j := by
  rw [List.get?_eq_getElem?] at h
  by_cases hj : j < n
  · rw [List.getElem?_map, List.getElem?_range hj] at h
    exact ⟨hj, (Option.some.inj h).symm⟩
  · rw [List.getElem?_eq_none (by simpa using Nat.le_of_not_lt hj)] at h
    exact absurd h (by simp)

theorem column_inv (blocks : List NpArray3) (ndims j : ℕ) (v : ℚ)
    (h : ((blocks.map (fun img => _perDim img ndims)).get? j).bind
      (fun row => row.get? 1) = some v) :
    j < blocks.length ∧ 2 ≤ ndims ∧
      v = npMean (channelSlice (blocks.getD j default) 1) := by
  obtain ⟨row, hrow, hval⟩ := Option.bind_eq_some.mp h
  rw [List.get?_eq_getElem?, List.getElem?_map] at hrow
  cases hb : blocks[j]? with
  | none => rw [hb] at hrow; exact absurd hrow (by simp)
  | some img =>
    rw [hb] at hrow
    have hrow' : row = _perDim img ndims := by
      simpa using hrow.symm
    rw [hrow'] at hval
    unfold _perDim at hval
    obtain ⟨h1, hv⟩ := map_range_get?_some _ _ _ _ hval
    have hlen : j < blocks.length := by
      obtain ⟨hpf, _⟩ := List.getElem?_eq_some.mp hb
      exact hpf
    have hgetD : blocks.getD j default = img := by
      rw [List.getD_eq_getElem?_getD, hb]
      rfl
    exact ⟨hlen, by omega, by rw [hgetD]; exact hv⟩

/-- C1: for every file processed with `asdf=True` for which the legacy
OutputRecord is assembled, the record's `Filename` equals the basename of the
file's identifier and the three statistic columns are `CH0` = channel-1 mean
of block 0, `CH1` = channel-1 mean of block 1, `CH2` = channel-1 mean of
block 2 (channel index 1 of each of the first three blocks, not all channels
of one block). -/
theorem C1_legacy_record (ident : String) (x : List ℕ) (n nrows ncols ndims : ℕ)
    (rec : OutputRecord) (h : meanRecord ident x n nrows ncols ndims = .ok rec) :
    rec.Filename = basename ident ∧
    ∃ blocks, decode x n nrows ncols ndims = .ok blocks ∧
      3 ≤ blocks.length ∧ 2 ≤ ndims ∧
      rec.CH0 = npMean (channelSlice (blocks.getD 0 default) 1) ∧
      rec.CH1 = npMean (channelSlice (blocks.getD 1 default) 1) ∧
      rec.CH2 = npMean (channelSlice (blocks.getD 2 default) 1) := by
  unfold meanRecord at h
  obtain ⟨m, hm, hfmt⟩ := except_bind_eq_ok _ _ _ h
  obtain ⟨a, b, c, ha, hb, hc, hrec⟩ := meanFormatted_ok_inv _ _ _ hfmt
  rw [_mean_eq_decode] at hm
  obtain ⟨blocks, hdec, hmap⟩ := except_map_eq_ok _ _ _ hm
  rw [← hmap] at ha hb hc
  obtain ⟨h0len, hnd, h0⟩ := column_inv _ _ _ _ ha
  obtain ⟨h1len, _, h1⟩ := column_inv _ _ _ _ hb
  obtain ⟨h2len, _, h2⟩ := column_inv _ _ _ _ hc
  subst hrec
  exact ⟨rfl, blocks, hdec, h2len, hnd, h0, h1, h2⟩

/-- Witness for C1 at a concrete input. -/
theorem C1_legacy_record_w :
    (OutputRecord.mk "f.raw" 2 4 6).Filename = basename "d/f.raw" ∧
    ∃ blocks, decode [1, 2, 3, 4, 5, 6] 3 1 1 2 = .ok blocks ∧
      3 ≤ blocks.length ∧ 2 ≤ 2 ∧
      (OutputRecord.mk "f.raw" 2 4 6).CH0 = npMean (channelSlice (blocks.getD 0 default) 1) ∧
      (OutputRecord.mk "f.raw" 2 4 6).CH1 = npMean (channelSlice (blocks.getD 1 default) 1) ∧
      (OutputRecord.mk "f.raw" 2 4 6).CH2 = npMean (channelSlice (blocks.getD 2 default) 1) :=
  C1_legacy_record "d/f.raw" [1, 2, 3, 4, 5, 6] 3 1 1 2 (OutputRecord.mk "f.raw" 2 4 6)
    (by simp [meanRecord, _mean, mapExcept, npSlice, npReshape3, _perDim, channelSlice,
      npIndex3, npMean, meanFormatted, basename, List.range_succ, Except.map,
      Except.instMonad, Except.bind, Except.pure])

theorem meanFormatted_error_of_none (ident : String) (m : List (List ℚ))
    (h : (m.get? 0).bind (fun row => row.get? 1) = none ∨
      (m.get? 1).bind (fun row => row.get? 1) = none ∨
      (m.get? 2).bind (fun row => row.get? 1) = none) :
    meanFormatted ident m = .error .channelIndexError := by
  unfold meanFormatted
  split
  · rename_i a b c ha hb hc
    rcases h with h | h | h <;> simp_all
  · rfl

theorem lookup_none_of_short_row (m : List (List ℚ)) (i : ℕ)
    (h : (m.getD i []).length < 2) :
    (m.get? i).bind (fun row => row.get? 1) = none := by
  cases e : m.get? i with
  | none => rfl
  | some row =>
    have hrow : m.getD i [] = row := by
      rw [List.getD_eq_getElem?_getD, ← List.get?_eq_getElem?, e]
      rfl
    rw [hrow] at h
    show row.get? 1 = none
    rw [List.get?_eq_getElem?, List.getElem?_eq_none (by omega)]

/-- C6: whenever the legacy three-column projection references a block index
or channel index absent from the computed means matrix (fewer than 3 blocks,
or a referenced row with fewer than 2 channels), the projection fails with
the channel-index error (the Python `IndexError`), and so does the whole
`asdf=True` pipeline for that file. -/
theorem C6_absent_index_error (ident : String) (x : List ℕ) (n nrows ncols ndims : ℕ)
    (m : List (List ℚ)) (hm : _mean x n nrows ncols ndims = .ok m)
    (habs : m.length < 3 ∨ ∃ i < 3, (m.getD i []).length < 2) :
    meanFormatted ident m = .error .channelIndexError ∧
      meanRecord ident x n nrows ncols ndims = .error .channelIndexError := by
  have hone : ∃ i < 3, (m.getD i []).length < 2 := by
    rcases habs with hlen | h
    · exact ⟨2, by omega, by rw [List.getD_eq_default m [] (by omega)]; simp⟩
    · exact h
  obtain ⟨i, hi3, hrow⟩ := hone
  have hfmt : meanFormatted ident m = .error .channelIndexError := by
    apply meanFormatted_error_of_none
    interval_cases i
    · exact Or.inl (lookup_none_of_short_row m 0 hrow)
    · exact Or.inr (Or.inl (lookup_none_of_short_row m 1 hrow))
    · exact Or.inr (Or.inr (lookup_none_of_short_row m 2 hrow))
  refine ⟨hfmt, ?_⟩
  unfold meanRecord
  rw [hm]
  exact hfmt

/-- Witness for C6 at a concrete input. -/
theorem C6_absent_index_error_w :
    meanFormatted "a/b.raw" [[1, 2], [3, 4]] = .error .channelIndexError ∧
      meanRecord "a/b.raw" [1, 2, 3, 4] 2 1 1 2 = .error .channelIndexError :=
  C6_absent_index_error "a/b.raw" [1, 2, 3, 4] 2 1 1 2 [[1, 2], [3, 4]]
    (by simp [_mean, mapExcept, npSlice, npReshape3, _perDim, channelSlice, npIndex3, npMean,
      List.range_succ, Except.map, Except.instMonad, Except.bind, Except.pure])
    (by simp)

/-- C7: concrete scenario with `nrows=2, ncols=2, ndims=3, n=2` and a 24-byte
buffer whose block-0 channel-1 samples are 10,20,30,40 and block-1 channel-1
samples are 50,60,70,80: the canonical result has `means[0][1] = 25` and
`means[1][1] = 65`; the legacy column lookups for `CH0` and `CH1` give 25 and
65, the lookup for `CH2` finds nothing (only 2 blocks are present), and the
legacy projection therefore fails with the channel-index error. -/
theorem C7_concrete_scenario :
    ∃ m, _mean [0, 10, 0, 0, 20, 0, 0, 30, 0, 0, 40, 0,
        0, 50, 0, 0, 60, 0, 0, 70, 0, 0, 80, 0] 2 2 2 3 = .ok m ∧
      (m.getD 0 []).getD 1 0 = 25 ∧
      (m.getD 1 []).getD 1 0 = 65 ∧
      (m.get? 0).bind (fun row => row.get? 1) = some 25 ∧
      (m.get? 1).bind (fun row => row.get? 1) = some 65 ∧
      (m.get? 2).bind (fun row => row.get? 1) = none ∧
      meanFormatted "p/q.raw" m = .error .channelIndexError ∧
      meanRecord "p/q.raw" [0, 10, 0, 0, 20, 0, 0, 30, 0, 0, 40, 0,
        0, 50, 0, 0, 60, 0, 0, 70, 0, 0, 80, 0] 2 2 2 3 = .error .channelIndexError := by
  refine ⟨[[0, 25, 0], [0, 65, 0]], ?_, rfl, rfl, rfl, rfl, rfl, ?_, ?_⟩
  · simp [_mean, mapExcept, npSlice, npReshape3, _perDim, channelSlice, npIndex3, npMean,
      List.range_succ, Except.map, Except.instMonad, Except.bind, Except.pure]
    norm_num
  · rfl
  · simp [meanRecord, meanFormatted, _mean, mapExcept, npSlice, npReshape3, _perDim,
      channelSlice, npIndex3, npMean, List.range_succ, Except.map, Except.instMonad,
      Except.bind, Except.pure]
